import Mathlib

/-!
Verification of the early-stopping observer mechanism described by the
`sampling_callback` notebook and its accompanying design specification.

The notebook itself contains only the two callback implementations
(`my_callback` and the class `MyCallback`); the multi-chain sampling
coordinator it exercises lives in the external library.  The coordinator,
trace accumulator and observer contract are therefore modelled from the
specification (sections 3-7), while the two callbacks are embedded
directly from the notebook source.
-/

namespace SamplingCallback

/-- Modelled from the spec (section 3, Draw): the sampled state `payload`
is an opaque mapping from variable name to numeric values. -/
abbrev Payload := List (String × Int)

/-- Modelled from the spec (section 3, Draw): one produced sample together
with its chain identifier, position within the chain, and tuning flag. -/
structure Draw where
  chain_id : Nat
  index : Nat
  is_tuning : Bool
  payload : Payload
deriving DecidableEq, Repr

/-- Modelled from the spec (sections 4.1 and 7): the programming-contract
violations raised by the per-chain trace accumulator. -/
inductive TraceError where
  | OrderViolation
  | OutOfRange
deriving DecidableEq, Repr

/-- Modelled from the spec (section 3, Trace): an append-only ordered
sequence of draws belonging to exactly one chain. -/
structure Trace where
  chain_id : Nat
  draws : List Draw
deriving DecidableEq, Repr

/-- Number of appended draws, `length()` of the accumulator contract. -/
def Trace.length (t : Trace) : Nat := t.draws.length

/-- A trace is created empty when its chain starts. -/
def Trace.empty (c : Nat) : Trace := ⟨c, []⟩

/-- Modelled from the spec (section 4.1): `append` is the only mutator; it
fails with `OrderViolation` if the draw's index is not the current length
or the draw's chain does not match the trace's fixed chain identity. -/
def Trace.append (t : Trace) (d : Draw) : Except TraceError Trace :=
  if d.index ≠ t.length then .error .OrderViolation
  else if d.chain_id ≠ t.chain_id then .error .OrderViolation
  else .ok ⟨t.chain_id, t.draws ++ [d]⟩

/-- Modelled from the spec (section 4.1): random access `get i` fails with
`OutOfRange` when `i` is not below the current length. -/
def Trace.get (t : Trace) (i : Nat) : Except TraceError Draw :=
  if h : i < t.draws.length then .ok (t.draws.get ⟨i, h⟩)
  else .error .OutOfRange

/-- Modelled from the spec (sections 4.2 and 9): the outcome of one
observer invocation.  The stop request is a distinguished value, separate
from every failure cause, so the coordinator never confuses a clean stop
with an error. -/
inductive ObserverSignal where
  | Continue
  | StopRequested
  | Failed (cause : String)
deriving DecidableEq, Repr

/-- Boolean classification used by the coordinator to recognise the stop
signal. -/
def ObserverSignal.isStopRequest : ObserverSignal → Bool
  | .StopRequested => true
  | _ => false

/-- An observer: anything invocable with the trace so far and the new draw. -/
abbrev ObserverFn := Trace → Draw → ObserverSignal

/-- Modelled from the spec (section 6): the external sampling-step
collaborator.  Given a chain, the next index and the tuning flag it either
supplies the next payload or fails. -/
abbrev StepFn := Nat → Nat → Bool → Except String Payload

/-- Modelled from the spec (section 6): run status reported to the caller. -/
inductive RunStatus where
  | completed
  | stoppedByObserver
  | failed (cause : String)
deriving DecidableEq, Repr

/-- Modelled from the spec (section 6): the run's result, a mapping from
chain identifier to its final (possibly incomplete) trace, the status, and
the sequence of draws delivered to the observer, in delivery order. -/
structure RunResult where
  traces : List (Nat × Trace)
  status : RunStatus
  log : List Draw
deriving Repr

/-- Outcome of running a single chain to exhaustion or interruption. -/
inductive ChainOutcome where
  | finishedAll
  | stoppedHere
  | stepFailed (cause : String)
  | observerFailed (cause : String)
deriving DecidableEq, Repr

/-- Modelled from the spec (sections 4.2 and 4.3): drive one chain for at
most `n` further draws.  Each step asks the external collaborator for a
payload, appends the resulting draw to the chain's trace, and invokes the
observer with the updated trace and the draw.  A stop request or any
failure ends the chain at once; the draws delivered to the observer are
returned as the log. -/
def runChainLoop (step : StepFn) (obs : ObserverFn) (tune : Nat) (c : Nat) :
    Trace → Nat → Trace × ChainOutcome × List Draw
  | t, 0 => (t, .finishedAll, [])
  | t, n + 1 =>
    match step c t.length (decide (t.length < tune)) with
    | .error e => (t, .stepFailed e, [])
    | .ok p =>
      let d : Draw := ⟨c, t.length, decide (t.length < tune), p⟩
      match t.append d with
      | .error _ => (t, .stepFailed "order violation", [])
      | .ok t' =>
        match obs t' d with
        | .Continue =>
          let r := runChainLoop step obs tune c t' n
          (r.1, r.2.1, d :: r.2.2)
        | .StopRequested => (t', .stoppedHere, [d])
        | .Failed e => (t', .observerFailed e, [d])

/-- Modelled from the spec (section 4.3, sequential mode): chains run one
after another; a stop request or a failure on one chain makes the
coordinator skip every chain not yet started and return immediately, with
the traces collected so far. -/
def runSeqFrom (step : StepFn) (obs : ObserverFn) (tune draws : Nat) :
    List Nat → RunResult
  | [] => ⟨[], .completed, []⟩
  | c :: rest =>
    let r := runChainLoop step obs tune c (Trace.empty c) (tune + draws)
    match r.2.1 with
    | .finishedAll =>
      let rr := runSeqFrom step obs tune draws rest
      ⟨(c, r.1) :: rr.traces, rr.status, r.2.2 ++ rr.log⟩
    | .stoppedHere => ⟨[(c, r.1)], .stoppedByObserver, r.2.2⟩
    | .stepFailed e => ⟨[(c, r.1)], .failed e, r.2.2⟩
    | .observerFailed e => ⟨[(c, r.1)], .failed e, r.2.2⟩

/-- Modelled from the spec (section 4.3): the sequential coordinator with
`chains` chains, `tune` tuning draws and `draws` post-tuning draws per
chain. -/
def runSequential (chains tune draws : Nat) (step : StepFn)
    (obs : ObserverFn) : RunResult :=
  runSeqFrom step obs tune draws (List.range chains)

/-- An observer that returns the given signal as soon as the trace holds at
least `L` draws, and continues otherwise. -/
def triggerAt (L : Nat) (sig : ObserverSignal) : ObserverFn :=
  fun trace _ => if L ≤ trace.length then sig else .Continue

/-- The outcome a chain reports when interrupted by the given signal. -/
def triggerOutcome : ObserverSignal → ChainOutcome
  | .Continue => .finishedAll
  | .StopRequested => .stoppedHere
  | .Failed e => .observerFailed e

/-- An observer that requests a stop as soon as the trace length reaches
`L`. -/
def stopAtLen (L : Nat) : ObserverFn := triggerAt L .StopRequested

/-- An observer that raises the error `e` (not the stop signal) as soon as
the trace length reaches `L`. -/
def failAtLen (L : Nat) (e : String) : ObserverFn := triggerAt L (.Failed e)

/-- Embedded from the notebook source (`my_callback`): raise the stop
signal once the chain trace holds at least 100 samples. -/
def my_callback (trace : Trace) (_draw : Draw) : ObserverSignal :=
  if 100 ≤ trace.length then .StopRequested else .Continue

/-- Python-dictionary style insertion into an association list: replace
the value stored under an existing key, otherwise add the key at the
end. -/
def dictInsert (s : List (Nat × Trace)) (k : Nat) (v : Trace) :
    List (Nat × Trace) :=
  match s with
  | [] => [(k, v)]
  | (k', v') :: rest =>
    if k' = k then (k, v) :: rest else (k', v') :: dictInsert rest k v

/-- The values of an association list, `dict.values()`. -/
def dictValues (s : List (Nat × Trace)) : List Trace := s.map Prod.snd

/-- Embedded from the notebook source (class `MyCallback`): the mutable
state of the convergence-checking callback, its configured interval
`every`, its threshold `max_rhat`, and the per-chain trace mapping
`traces`. -/
structure MyCallback where
  every : Nat
  max_rhat : ℚ
  traces : List (Nat × Trace)

/-- Embedded from the notebook source (`MyCallback.__call__`): skip tuning
draws; record the handed trace under the draw's chain; every `every`
draws, combine the recorded traces and request a stop when the maximal
r-hat over the combined traces is below the threshold.  The r-hat
statistic itself is the external statistic collaborator (spec section 6)
and is passed in as `rhatMax`. -/
def MyCallback.call (rhatMax : List Trace → ℚ) (st : MyCallback)
    (trace : Trace) (draw : Draw) : MyCallback × ObserverSignal :=
  if draw.is_tuning then (st, .Continue)
  else
    let st' := { st with traces := dictInsert st.traces draw.chain_id trace }
    if trace.length % st.every = 0 then
      if rhatMax (dictValues st'.traces) < st.max_rhat then
        (st', .StopRequested)
      else (st', .Continue)
    else (st', .Continue)

/-- Thread a sequence of `(trace, draw)` invocations through the stateful
callback, returning its final state. -/
def MyCallback.runCalls (rhatMax : List Trace → ℚ) (st : MyCallback)
    (calls : List (Trace × Draw)) : MyCallback :=
  calls.foldl (fun s p => (MyCallback.call rhatMax s p.1 p.2).1) st

/-- The most recent trace supplied to the callback for chain `c`, among
the non-tuning invocations; `none` when chain `c` was never observed. -/
def latestTraceFor (c : Nat) (calls : List (Trace × Draw)) : Option Trace :=
  (calls.reverse.find? (fun p => !p.2.is_tuning && (p.2.chain_id == c))).map
    Prod.fst

/-- Modelled from the spec (sections 4.3 and 5, concurrent mode): the
per-chain state of the concurrent coordinator.  `inFlight` is a draw whose
production has started but which has not yet been appended and delivered;
`postStop` counts the draws this chain appended after a stop had been
requested. -/
structure ChainConc where
  trace : Trace
  inFlight : Option Draw
  finished : Bool
  postStop : Nat
deriving DecidableEq, Repr

/-- Modelled from the spec (sections 4.3 and 5, concurrent mode): the
global state of the concurrent coordinator. -/
structure ConcState where
  chainsSt : List ChainConc
  stopRequested : Bool
  failedCause : Option String
  log : List Draw
deriving DecidableEq, Repr

/-- The initial concurrent state: `n` chains, each with an empty trace. -/
def ConcState.init (n : Nat) : ConcState :=
  ⟨(List.range n).map (fun c => ⟨Trace.empty c, none, false, 0⟩),
    false, none, []⟩

/-- Modelled from the spec (sections 4.3 and 5, concurrent mode): one
scheduling tick of chain `c`.  A chain with a draw in flight completes it:
the draw is appended, logged and delivered to the observer, and a chain
that completes a draw after a stop was requested honors the cancellation
right afterwards.  A chain between draws first honors a pending stop, then
checks its draw budget, then starts the next draw.  A stop request or any
failure raises the shared `stopRequested` flag, which is the best-effort
cancellation signal for the sibling chains. -/
def concTick (step : StepFn) (obs : ObserverFn) (tune draws : Nat)
    (s : ConcState) (c : Nat) : ConcState :=
  match s.chainsSt[c]? with
  | none => s
  | some ch =>
    if ch.finished then s
    else
      match ch.inFlight with
      | some d =>
        match ch.trace.append d with
        | .error _ =>
          { s with
            chainsSt := s.chainsSt.set c
              { ch with inFlight := none, finished := true },
            stopRequested := true,
            failedCause := some "order violation" }
        | .ok t' =>
          let inc : Nat := if s.stopRequested then 1 else 0
          match obs t' d with
          | .Continue =>
            { s with
              chainsSt := s.chainsSt.set c
                ⟨t', none, s.stopRequested || decide (tune + draws ≤ t'.length),
                  ch.postStop + inc⟩,
              log := s.log ++ [d] }
          | .StopRequested =>
            { s with
              chainsSt := s.chainsSt.set c ⟨t', none, true, ch.postStop + inc⟩,
              stopRequested := true,
              log := s.log ++ [d] }
          | .Failed e =>
            { s with
              chainsSt := s.chainsSt.set c ⟨t', none, true, ch.postStop + inc⟩,
              stopRequested := true,
              failedCause := some e,
              log := s.log ++ [d] }
      | none =>
        if s.stopRequested then
          { s with chainsSt := s.chainsSt.set c { ch with finished := true } }
        else if tune + draws ≤ ch.trace.length then
          { s with chainsSt := s.chainsSt.set c { ch with finished := true } }
        else
          match step c ch.trace.length (decide (ch.trace.length < tune)) with
          | .error e =>
            { s with
              chainsSt := s.chainsSt.set c { ch with finished := true },
              stopRequested := true,
              failedCause := some e }
          | .ok p =>
            let d : Draw := ⟨c, ch.trace.length, decide (ch.trace.length < tune), p⟩
            { s with
              chainsSt := s.chainsSt.set c { ch with inFlight := some d } }

/-- Modelled from the spec (section 4.3, concurrent mode): run the
concurrent coordinator under an arbitrary interleaving `sched` of chain
scheduling ticks. -/
def runConc (step : StepFn) (obs : ObserverFn) (tune draws chains : Nat)
    (sched : List Nat) : ConcState :=
  sched.foldl (concTick step obs tune draws) (ConcState.init chains)

/-- The current trace length of chain `c` in a concurrent state. -/
def ConcState.chainLen (s : ConcState) (c : Nat) : Nat :=
  match s.chainsSt[c]? with
  | some ch => ch.trace.length
  | none => 0

/-- The per-chain delivery-order invariant of the concurrent coordinator:
the draws logged for each chain carry exactly the indices `0, 1, 2, ...`
up to the chain's current trace length, every chain record sits at the
position of its chain identifier with a well-formed in-flight draw, and
every logged draw belongs to a configured chain. -/
def LogInv (cs : List ChainConc) (log : List Draw) : Prop :=
  (∀ c, (log.filter (fun d => d.chain_id == c)).map (fun d => d.index)
      = List.range (match cs[c]? with
          | some ch => ch.trace.length
          | none => 0))
  ∧ (∀ (i : Nat) (ch : ChainConc), cs[i]? = some ch → ch.trace.chain_id = i
      ∧ ∀ d, ch.inFlight = some d → d.chain_id = i ∧ d.index = ch.trace.length)
  ∧ (∀ d ∈ log, d.chain_id < cs.length)

theorem mod_eq_zero_iff_dvd_nat (k n : Nat) : n % k = 0 ↔ k ∣ n :=
  Nat.dvd_iff_mod_eq_zero.symm

/-- C7: the observer's stop signal is distinguishable from every domain
error: each observer outcome is exactly one of Continue, the distinguished
stop request, or a failure with some cause; the coordinator decides which
by `isStopRequest`, which is true on the stop request and false on
Continue and on every failure, so the stop signal is never confused with
any other raised condition. -/
theorem C7_stop_signal_distinguishable :
    (∀ r : ObserverSignal,
        r = .Continue ∨ r = .StopRequested ∨ ∃ cause, r = .Failed cause)
    ∧ (∀ r : ObserverSignal, r.isStopRequest = true ↔ r = .StopRequested)
    ∧ (ObserverSignal.StopRequested.isStopRequest = true)
    ∧ (ObserverSignal.Continue.isStopRequest = false)
    ∧ (∀ cause, (ObserverSignal.Failed cause).isStopRequest = false) := by
  refine ⟨fun r => ?_, fun r => ?_, rfl, rfl, fun cause => rfl⟩
  · cases r <;> simp
  · cases r <;> simp [ObserverSignal.isStopRequest]

/-- C8: the trace accumulator contract: `append` fails with
`OrderViolation` exactly when the draw's index differs from the current
length or its chain differs from the trace's chain identity; `get i` fails
with `OutOfRange` exactly when `i` is not below the length; a successful
append only extends the stored draws, so no draw is ever removed. -/
theorem C8_trace_accumulator_contract :
    ∀ (t : Trace) (d : Draw) (i : Nat),
    (t.append d = .error .OrderViolation
      ↔ (d.index ≠ t.length ∨ d.chain_id ≠ t.chain_id))
    ∧ (t.get i = .error .OutOfRange ↔ t.length ≤ i)
    ∧ (∀ t', t.append d = .ok t' → t'.draws = t.draws ++ [d]) := by
  intro t d i
  refine ⟨?_, ?_, ?_⟩
  · unfold Trace.append
    by_cases h1 : d.index = t.length <;> by_cases h2 : d.chain_id = t.chain_id <;>
      simp [h1, h2]
  · unfold Trace.get
    split
    · next h => simp [Trace.length]; omega
    · next h => simp [Trace.length]; omega
  · intro t' h
    unfold Trace.append at h
    by_cases h1 : d.index = t.length <;> by_cases h2 : d.chain_id = t.chain_id <;>
      simp [h1, h2] at h
    rw [← h]

/-- C8 witness: appending a matching draw to an empty trace succeeds and
stores exactly that draw. -/
theorem C8_trace_accumulator_contract_witness :
    (Trace.mk 0 [⟨0, 0, false, []⟩]).draws
      = (Trace.empty 0).draws ++ [⟨0, 0, false, []⟩] :=
  (C8_trace_accumulator_contract (Trace.empty 0) ⟨0, 0, false, []⟩ 0).2.2
    ⟨0, [⟨0, 0, false, []⟩]⟩ rfl

/-- C10: the convergence-checking callback requests a stop exactly when
the draw is not a tuning draw, the trace length is an exact multiple of
the configured interval `every`, and the maximal r-hat over the combined
traces is strictly below the configured threshold `max_rhat`; on a tuning
draw it neither stops nor updates its per-chain trace mapping. -/
theorem C10_mycallback_stop_condition :
    ∀ (rhatMax : List Trace → ℚ) (st : MyCallback) (trace : Trace)
      (draw : Draw),
    ((MyCallback.call rhatMax st trace draw).2 = .StopRequested
      ↔ (draw.is_tuning = false ∧ st.every ∣ trace.length
          ∧ rhatMax (dictValues (dictInsert st.traces draw.chain_id trace))
              < st.max_rhat))
    ∧ (draw.is_tuning = true →
        MyCallback.call rhatMax st trace draw = (st, .Continue)) := by
  intro rhatMax st trace draw
  constructor
  · by_cases ht : draw.is_tuning
    · simp [MyCallback.call, ht]
    · have ht' : draw.is_tuning = false := by simpa using ht
      by_cases hm : trace.length % st.every = 0
      · by_cases hr :
            rhatMax (dictValues (dictInsert st.traces draw.chain_id trace))
              < st.max_rhat
        · simp [MyCallback.call, ht', hm, hr,
            (mod_eq_zero_iff_dvd_nat st.every trace.length).mp hm]
        · simp [MyCallback.call, ht', hm, hr]
      · have : ¬ st.every ∣ trace.length := by
          rw [← mod_eq_zero_iff_dvd_nat]; exact hm
        simp [MyCallback.call, ht', hm, this]
  · intro h
    simp [MyCallback.call, h]

/-- C10 witness: on a tuning draw the callback leaves its state untouched
and continues. -/
theorem C10_mycallback_stop_condition_witness :
    MyCallback.call (fun _ => 0) ⟨1, 1, []⟩ (Trace.empty 0) ⟨0, 0, true, []⟩
      = (⟨1, 1, []⟩, .Continue) :=
  (C10_mycallback_stop_condition (fun _ => 0) ⟨1, 1, []⟩ (Trace.empty 0)
    ⟨0, 0, true, []⟩).2 rfl

theorem dictInsert_lookup (s : List (Nat × Trace)) (k c : Nat) (v : Trace) :
    List.lookup c (dictInsert s k v)
      = if k = c then some v else List.lookup c s := by
  induction s with
  | nil =>
    by_cases h : k = c
    · subst h; simp [dictInsert, List.lookup_cons]
    · have h' : c ≠ k := fun hh => h hh.symm
      simp [dictInsert, List.lookup_cons, beq_false_of_ne h', h]
  | cons hd tl ih =>
    obtain ⟨k', v'⟩ := hd
    by_cases h : k' = k
    · subst h
      by_cases h2 : k' = c
      · subst h2; simp [dictInsert, List.lookup_cons]
      · have h2' : c ≠ k' := fun hh => h2 hh.symm
        simp [dictInsert, List.lookup_cons, beq_false_of_ne h2', h2]
    · by_cases h2 : k' = c
      · subst h2
        have hk : ¬ k = k' := fun hh => h hh.symm
        simp [dictInsert, h, List.lookup_cons, hk]
      · have h2' : c ≠ k' := fun hh => h2 hh.symm
        simp [dictInsert, h, List.lookup_cons, beq_false_of_ne h2', ih]

theorem dictInsert_keys (s : List (Nat × Trace)) (k : Nat) (v : Trace) :
    (dictInsert s k v).map Prod.fst
      = if k ∈ s.map Prod.fst then s.map Prod.fst
        else s.map Prod.fst ++ [k] := by
  induction s with
  | nil => simp [dictInsert]
  | cons hd tl ih =>
    obtain ⟨k', v'⟩ := hd
    by_cases h : k' = k
    · subst h
      simp [dictInsert]
    · have hk : ¬ k = k' := fun hh => h hh.symm
      by_cases h2 : k ∈ tl.map Prod.fst <;> simp [dictInsert, h, hk, h2, ih]

theorem call_state_tuning (rhatMax : List Trace → ℚ) (st : MyCallback)
    (trace : Trace) (draw : Draw) (h : draw.is_tuning = true) :
    (MyCallback.call rhatMax st trace draw).1 = st := by
  simp [MyCallback.call, h]

theorem call_traces_not_tuning (rhatMax : List Trace → ℚ) (st : MyCallback)
    (trace : Trace) (draw : Draw) (h : draw.is_tuning = false) :
    (MyCallback.call rhatMax st trace draw).1.traces
      = dictInsert st.traces draw.chain_id trace := by
  unfold MyCallback.call
  rw [h]
  simp only [Bool.false_eq_true, if_false]
  split_ifs <;> rfl

theorem runCalls_lookup (rhatMax : List Trace → ℚ) :
    ∀ (calls : List (Trace × Draw)) (st : MyCallback) (c : Nat),
    List.lookup c (MyCallback.runCalls rhatMax st calls).traces
      = match latestTraceFor c calls with
        | some t => some t
        | none => List.lookup c st.traces := by
  intro calls
  induction calls with
  | nil => intro st c; simp [MyCallback.runCalls, latestTraceFor]
  | cons p rest ih =>
    intro st c
    have hstep : MyCallback.runCalls rhatMax st (p :: rest)
        = MyCallback.runCalls rhatMax (MyCallback.call rhatMax st p.1 p.2).1 rest := by
      simp [MyCallback.runCalls]
    rw [hstep, ih]
    have hlatest : latestTraceFor c (p :: rest)
        = match latestTraceFor c rest with
          | some t => some t
          | none =>
            if p.2.is_tuning = false ∧ p.2.chain_id = c then some p.1
            else none := by
      unfold latestTraceFor
      rw [List.reverse_cons, List.find?_append]
      cases hf : rest.reverse.find? (fun q => !q.2.is_tuning && (q.2.chain_id == c)) with
      | some q => simp [hf]
      | none =>
        by_cases ht : p.2.is_tuning
        · simp [hf, List.find?, ht]
        · have ht' : p.2.is_tuning = false := by simpa using ht
          by_cases hc : p.2.chain_id = c
          · simp [hf, List.find?, ht', hc]
          · simp [hf, List.find?, ht', beq_false_of_ne hc, hc]
    rw [hlatest]
    cases hl : latestTraceFor c rest with
    | some t => simp
    | none =>
      simp only []
      by_cases ht : p.2.is_tuning
      · rw [call_state_tuning rhatMax st p.1 p.2 ht]
        simp [ht]
      · have ht' : p.2.is_tuning = false := by simpa using ht
        rw [show List.lookup c (MyCallback.call rhatMax st p.1 p.2).1.traces
            = List.lookup c (dictInsert st.traces p.2.chain_id p.1) from by
          rw [call_traces_not_tuning rhatMax st p.1 p.2 ht']]
        rw [dictInsert_lookup]
        by_cases hc : p.2.chain_id = c
        · simp [ht', hc]
        · simp [ht', hc]

theorem runCalls_key_observed (rhatMax : List Trace → ℚ) :
    ∀ (calls : List (Trace × Draw)) (st : MyCallback) (k : Nat),
    k ∈ (MyCallback.runCalls rhatMax st calls).traces.map Prod.fst →
    k ∈ st.traces.map Prod.fst
    ∨ ∃ p ∈ calls, p.2.is_tuning = false ∧ p.2.chain_id = k := by
  intro calls
  induction calls with
  | nil => intro st k h; exact Or.inl (by simpa [MyCallback.runCalls] using h)
  | cons p rest ih =>
    intro st k h
    have hstep : MyCallback.runCalls rhatMax st (p :: rest)
        = MyCallback.runCalls rhatMax (MyCallback.call rhatMax st p.1 p.2).1 rest := by
      simp [MyCallback.runCalls]
    rw [hstep] at h
    rcases ih (MyCallback.call rhatMax st p.1 p.2).1 k h with hin | ⟨q, hq, hq2⟩
    · by_cases ht : p.2.is_tuning
      · rw [call_state_tuning rhatMax st p.1 p.2 ht] at hin
        exact Or.inl hin
      · have ht' : p.2.is_tuning = false := by simpa using ht
        rw [call_traces_not_tuning rhatMax st p.1 p.2 ht'] at hin
        rw [dictInsert_keys] at hin
        by_cases hmem : p.2.chain_id ∈ st.traces.map Prod.fst
        · rw [if_pos hmem] at hin
          exact Or.inl hin
        · rw [if_neg hmem] at hin
          rcases List.mem_append.mp hin with hin | hin
          · exact Or.inl hin
          · exact Or.inr ⟨p, by simp, ht', (List.mem_singleton.mp hin).symm⟩
    · exact Or.inr ⟨q, by simp [hq], hq2⟩

theorem runCalls_keys_nodup (rhatMax : List Trace → ℚ) :
    ∀ (calls : List (Trace × Draw)) (st : MyCallback),
    (st.traces.map Prod.fst).Nodup →
    ((MyCallback.runCalls rhatMax st calls).traces.map Prod.fst).Nodup := by
  intro calls
  induction calls with
  | nil => intro st h; simpa [MyCallback.runCalls] using h
  | cons p rest ih =>
    intro st h
    have hstep : MyCallback.runCalls rhatMax st (p :: rest)
        = MyCallback.runCalls rhatMax (MyCallback.call rhatMax st p.1 p.2).1 rest := by
      simp [MyCallback.runCalls]
    rw [hstep]
    apply ih
    by_cases ht : p.2.is_tuning
    · rw [call_state_tuning rhatMax st p.1 p.2 ht]; exact h
    · have ht' : p.2.is_tuning = false := by simpa using ht
      rw [call_traces_not_tuning rhatMax st p.1 p.2 ht']
      rw [dictInsert_keys]
      by_cases hmem : p.2.chain_id ∈ st.traces.map Prod.fst
      · rw [if_pos hmem]; exact h
      · rw [if_neg hmem]
        simp [List.nodup_append, h, hmem]

/-- C9: threading any sequence of invocations through the stateful
convergence callback, the per-chain trace mapping it maintains holds, for
every chain, exactly the most recent trace it was handed for that chain
among the non-tuning invocations, holds no entry for a chain it has not
observed, and holds at most one entry per chain. -/
theorem C9_latest_trace_per_chain :
    ∀ (rhatMax : List Trace → ℚ) (every : Nat) (mr : ℚ)
      (calls : List (Trace × Draw)),
    (∀ c, List.lookup c
        (MyCallback.runCalls rhatMax ⟨every, mr, []⟩ calls).traces
      = latestTraceFor c calls)
    ∧ (∀ pr ∈ (MyCallback.runCalls rhatMax ⟨every, mr, []⟩ calls).traces,
        latestTraceFor pr.1 calls ≠ none)
    ∧ ((MyCallback.runCalls rhatMax ⟨every, mr, []⟩ calls).traces.map
        Prod.fst).Nodup := by
  intro rhatMax every mr calls
  refine ⟨fun c => ?_, fun pr hpr => ?_, ?_⟩
  · rw [runCalls_lookup]
    cases hl : latestTraceFor c calls <;> simp [List.lookup]
  · have hkey : pr.1 ∈
        (MyCallback.runCalls rhatMax ⟨every, mr, []⟩ calls).traces.map Prod.fst :=
      List.mem_map_of_mem Prod.fst hpr
    rcases runCalls_key_observed rhatMax calls ⟨every, mr, []⟩ pr.1 hkey with
      hin | ⟨q, hq, hq1, hq2⟩
    · simp at hin
    · intro hnone
      unfold latestTraceFor at hnone
      rw [Option.map_eq_none'] at hnone
      rw [List.find?_eq_none] at hnone
      exact absurd (by simp [hq1, hq2] :
          (!q.2.is_tuning && (q.2.chain_id == pr.1)) = true)
        (hnone q (List.mem_reverse.mpr hq))
  · exact runCalls_keys_nodup rhatMax calls ⟨every, mr, []⟩ (by simp)

/-- C9 witness: after one non-tuning invocation for chain 0 the mapping
has an entry for chain 0, so the latest trace for chain 0 exists. -/
theorem C9_latest_trace_per_chain_witness :
    latestTraceFor 0 [(Trace.empty 0, ⟨0, 0, false, []⟩)] ≠ none :=
  (C9_latest_trace_per_chain (fun _ => 0) 1 1
      [(Trace.empty 0, ⟨0, 0, false, []⟩)]).2.1
    (0, Trace.empty 0) (by decide)

theorem runChainLoop_spec (step : StepFn) (obs : ObserverFn) (tune c : Nat) :
    ∀ (n : Nat) (t : Trace), t.chain_id = c →
    (runChainLoop step obs tune c t n).1.chain_id = c
    ∧ (runChainLoop step obs tune c t n).1.length
        = t.length + (runChainLoop step obs tune c t n).2.2.length
    ∧ (runChainLoop step obs tune c t n).2.2.map (fun d => d.index)
        = List.range' t.length (runChainLoop step obs tune c t n).2.2.length
    ∧ (∀ d ∈ (runChainLoop step obs tune c t n).2.2, d.chain_id = c) := by
  intro n
  induction n with
  | zero => intro t ht; simp [runChainLoop, ht]
  | succ n ih =>
    intro t ht
    rcases hs : step c t.length (decide (t.length < tune)) with e | p
    · simp [runChainLoop, hs, ht]
    · have happ : t.append ⟨c, t.length, decide (t.length < tune), p⟩
          = .ok ⟨c, t.draws ++ [⟨c, t.length, decide (t.length < tune), p⟩]⟩ := by
        simp [Trace.append, Trace.length, ht]
      have hlen : (Trace.mk c
          (t.draws ++ [⟨c, t.length, decide (t.length < tune), p⟩])).length
          = t.length + 1 := by
        simp [Trace.length]
      rcases ho : obs ⟨c, t.draws ++ [⟨c, t.length, decide (t.length < tune), p⟩]⟩
          ⟨c, t.length, decide (t.length < tune), p⟩ with _ | _ | e
      · have hih := ih ⟨c, t.draws ++ [⟨c, t.length, decide (t.length < tune), p⟩]⟩ rfl
        rw [hlen] at hih
        simp only [runChainLoop, hs, happ, ho]
        refine ⟨hih.1, by rw [hih.2.1]; simp; omega, ?_, ?_⟩
        · simp only [List.map_cons, List.length_cons, hih.2.2.1, List.range'_succ]
        · intro d hd
          rcases List.mem_cons.mp hd with hd | hd
          · rw [hd]
          · exact hih.2.2.2 d hd
      · simp [runChainLoop, hs, happ, ho, hlen, List.range'_succ]
      · simp [runChainLoop, hs, happ, ho, hlen, List.range'_succ]

theorem runChainLoop_complete (step : StepFn) (obs : ObserverFn) (tune c : Nat)
    (hstep : ∀ ci i b, ∃ p, step ci i b = .ok p)
    (hobs : ∀ t d, obs t d = .Continue) :
    ∀ (n : Nat) (t : Trace), t.chain_id = c →
    (runChainLoop step obs tune c t n).2.1 = .finishedAll
    ∧ (runChainLoop step obs tune c t n).1.length = t.length + n
    ∧ (runChainLoop step obs tune c t n).1.chain_id = c := by
  intro n
  induction n with
  | zero => intro t ht; simp [runChainLoop, ht]
  | succ n ih =>
    intro t ht
    obtain ⟨p, hs⟩ := hstep c t.length (decide (t.length < tune))
    have happ : t.append ⟨c, t.length, decide (t.length < tune), p⟩
        = .ok ⟨c, t.draws ++ [⟨c, t.length, decide (t.length < tune), p⟩]⟩ := by
      simp [Trace.append, Trace.length, ht]
    have hih := ih ⟨c, t.draws ++ [⟨c, t.length, decide (t.length < tune), p⟩]⟩ rfl
    simp only [runChainLoop, hs, happ, hobs]
    refine ⟨hih.1, ?_, hih.2.2⟩
    rw [hih.2.1]
    simp [Trace.length]
    omega

theorem runChainLoop_trigger (step : StepFn) (tune c L : Nat)
    (sig : ObserverSignal) (hsig : sig ≠ .Continue)
    (hstep : ∀ ci i b, ∃ p, step ci i b = .ok p) :
    ∀ (n : Nat) (t : Trace), t.chain_id = c → t.length < L → L ≤ t.length + n →
    (runChainLoop step (triggerAt L sig) tune c t n).2.1 = triggerOutcome sig
    ∧ (runChainLoop step (triggerAt L sig) tune c t n).1.length = L
    ∧ (runChainLoop step (triggerAt L sig) tune c t n).1.chain_id = c := by
  intro n
  induction n with
  | zero => intro t ht h1 h2; omega
  | succ n ih =>
    intro t ht h1 h2
    obtain ⟨p, hs⟩ := hstep c t.length (decide (t.length < tune))
    have happ : t.append ⟨c, t.length, decide (t.length < tune), p⟩
        = .ok ⟨c, t.draws ++ [⟨c, t.length, decide (t.length < tune), p⟩]⟩ := by
      simp [Trace.append, Trace.length, ht]
    by_cases hL : L ≤ t.length + 1
    · have ho : triggerAt L sig
          ⟨c, t.draws ++ [⟨c, t.length, decide (t.length < tune), p⟩]⟩
          ⟨c, t.length, decide (t.length < tune), p⟩ = sig := by
        have hL' : L ≤ t.draws.length + 1 := by
          simpa [Trace.length] using hL
        simp [triggerAt, Trace.length, hL']
      rcases sig with _ | _ | e
      · exact absurd rfl hsig
      · simp only [runChainLoop, hs, happ, ho]
        simp [triggerOutcome, Trace.length]
        simp [Trace.length] at h1 hL
        omega
      · simp only [runChainLoop, hs, happ, ho]
        simp [triggerOutcome, Trace.length]
        simp [Trace.length] at h1 hL
        omega
    · have hL' : ¬ L ≤ t.draws.length + 1 := by
        simpa [Trace.length] using hL
      have ho : triggerAt L sig
          ⟨c, t.draws ++ [⟨c, t.length, decide (t.length < tune), p⟩]⟩
          ⟨c, t.length, decide (t.length < tune), p⟩ = .Continue := by
        simp [triggerAt, Trace.length, hL']
      have hih := ih ⟨c, t.draws ++ [⟨c, t.length, decide (t.length < tune), p⟩]⟩
        rfl (by simp [Trace.length]; simp [Trace.length] at hL; omega)
        (by simp [Trace.length]; simp [Trace.length] at h2; omega)
      simp only [runChainLoop, hs, happ, ho]
      exact hih

/-- C2 counterexample: an observer that never requests a stop but raises
an error on every invocation, together with a sampling step that never
fails, yields a run whose status is a failure rather than `completed`. -/
theorem C2_observer_error_counterexample :
    (runSequential 1 0 2 (fun _ _ _ => .ok [])
        (fun _ _ => .Failed "boom")).status = .failed "boom"
    ∧ (runSequential 1 0 2 (fun _ _ _ => .ok [])
        (fun _ _ => .Failed "boom")).status ≠ .completed := by
  have h : (runSequential 1 0 2 (fun _ _ _ => .ok [])
      (fun _ _ => .Failed "boom")).status = .failed "boom" := rfl
  exact ⟨h, by rw [h]; simp⟩

/-- C2 (amended): if the observer never requests a stop, never raises an
error, and the sampling step never fails, the run completes: the status is
`completed`, one trace per configured chain is returned, and every chain's
trace length is the tuning draws plus the post-tuning draws. -/
theorem C2_completed_full_length (chains tune draws : Nat) (step : StepFn)
    (obs : ObserverFn)
    (hstep : ∀ c i b, ∃ p, step c i b = .ok p)
    (hobs : ∀ t d, obs t d = .Continue) :
    (runSequential chains tune draws step obs).status = .completed
    ∧ (runSequential chains tune draws step obs).traces.map Prod.fst
        = List.range chains
    ∧ ∀ pr ∈ (runSequential chains tune draws step obs).traces,
        pr.2.length = tune + draws := by
  have main : ∀ cs : List Nat,
      (runSeqFrom step obs tune draws cs).status = .completed
      ∧ (runSeqFrom step obs tune draws cs).traces.map Prod.fst = cs
      ∧ ∀ pr ∈ (runSeqFrom step obs tune draws cs).traces,
          pr.2.length = tune + draws := by
    intro cs
    induction cs with
    | nil => simp [runSeqFrom]
    | cons c rest ih =>
      have h := runChainLoop_complete step obs tune c hstep hobs
        (tune + draws) (Trace.empty c) rfl
      simp only [runSeqFrom, h.1]
      refine ⟨ih.1, ?_, ?_⟩
      · simp [ih.2.1]
      · intro pr hpr
        rcases List.mem_cons.mp hpr with hpr | hpr
        · rw [hpr]
          have hl := h.2.1
          simp only [Trace.empty, Trace.length, List.length_nil, Nat.zero_add] at hl
          simpa [Trace.length] using hl
        · exact ih.2.2 pr hpr
  exact ⟨(main (List.range chains)).1, (main (List.range chains)).2.1,
    (main (List.range chains)).2.2⟩

/-- C2 witness: a concrete two-chain run with one tuning and three
post-tuning draws completes. -/
theorem C2_completed_full_length_witness :
    (runSequential 2 1 3 (fun _ _ _ => .ok [])
      (fun _ _ => .Continue)).status = .completed :=
  (C2_completed_full_length 2 1 3 (fun _ _ _ => .ok []) (fun _ _ => .Continue)
    (fun _ _ _ => ⟨[], rfl⟩) (fun _ _ => rfl)).1

/-- C1: when the observer requests a stop as soon as the trace length
reaches `L` (as `my_callback` does for `L = 100`), and the stop is
reachable (`1 ≤ L ≤ tune + draws`, at least one chain, sampling step never
fails), the run status is `stopped-by-observer` and the returned trace of
the stopping chain has length exactly `L`. -/
theorem C1_stop_at_length (step : StepFn) (tune draws chains L : Nat)
    (hstep : ∀ ci i b, ∃ p, step ci i b = .ok p)
    (hL1 : 1 ≤ L) (hL2 : L ≤ tune + draws) (hch : 1 ≤ chains) :
    (runSequential chains tune draws step (stopAtLen L)).status
      = .stoppedByObserver
    ∧ (runSequential chains tune draws step (stopAtLen L)).traces.map
        (fun pr => (pr.1, pr.2.length)) = [(0, L)] := by
  obtain ⟨m, rfl⟩ : ∃ m, chains = m + 1 := ⟨chains - 1, by omega⟩
  have htr := runChainLoop_trigger step tune 0 L .StopRequested (by simp) hstep
    (tune + draws) (Trace.empty 0) rfl
    (by simp [Trace.length, Trace.empty]; omega)
    (by simp [Trace.length, Trace.empty]; omega)
  have hout : (runChainLoop step (triggerAt L .StopRequested) tune 0
      (Trace.empty 0) (tune + draws)).2.1 = .stoppedHere := htr.1
  unfold runSequential
  rw [List.range_succ_eq_map]
  simp only [stopAtLen, runSeqFrom, hout]
  simp [htr.2.1]

/-- C1 witness: the notebook's run, 1 chain, no tuning draws, 500
post-tuning draws and `my_callback` stopping at 100 samples, stops by
observer with a trace of length exactly 100. -/
theorem C1_stop_at_length_witness :
    (runSequential 1 0 500 (fun _ _ _ => .ok []) my_callback).status
      = .stoppedByObserver
    ∧ (runSequential 1 0 500 (fun _ _ _ => .ok []) my_callback).traces.map
        (fun pr => (pr.1, pr.2.length)) = [(0, 100)] := by
  have hcb : my_callback = stopAtLen 100 := rfl
  rw [hcb]
  exact C1_stop_at_length (fun _ _ _ => .ok []) 0 500 1 100
    (fun _ _ _ => ⟨[], rfl⟩) (by omega) (by omega) (by omega)

/-- C6: when the observer raises an error other than the stop signal (here
as soon as the trace length reaches `L`), the run aborts as a failure: the
status carries the error cause, it is not the clean observer stop, and the
trace collected up to the failure (length `L`) is still returned. -/
theorem C6_observer_error_aborts_as_failure (step : StepFn)
    (tune draws chains L : Nat) (e : String)
    (hstep : ∀ ci i b, ∃ p, step ci i b = .ok p)
    (hL1 : 1 ≤ L) (hL2 : L ≤ tune + draws) (hch : 1 ≤ chains) :
    (runSequential chains tune draws step (failAtLen L e)).status = .failed e
    ∧ (runSequential chains tune draws step (failAtLen L e)).status
        ≠ .stoppedByObserver
    ∧ (runSequential chains tune draws step (failAtLen L e)).traces.map
        (fun pr => (pr.1, pr.2.length)) = [(0, L)] := by
  obtain ⟨m, rfl⟩ : ∃ m, chains = m + 1 := ⟨chains - 1, by omega⟩
  have htr := runChainLoop_trigger step tune 0 L (.Failed e) (by simp) hstep
    (tune + draws) (Trace.empty 0) rfl
    (by simp [Trace.length, Trace.empty]; omega)
    (by simp [Trace.length, Trace.empty]; omega)
  have hout : (runChainLoop step (triggerAt L (.Failed e)) tune 0
      (Trace.empty 0) (tune + draws)).2.1 = .observerFailed e := htr.1
  unfold runSequential
  rw [List.range_succ_eq_map]
  simp only [failAtLen, runSeqFrom, hout]
  simp [htr.2.1]

/-- C6 witness: a concrete run whose observer raises the error `boom` at
trace length 2 fails with that cause and still returns the two collected
draws. -/
theorem C6_observer_error_aborts_as_failure_witness :
    (runSequential 2 0 5 (fun _ _ _ => .ok [])
        (failAtLen 2 "boom")).status = .failed "boom"
    ∧ (runSequential 2 0 5 (fun _ _ _ => .ok [])
        (failAtLen 2 "boom")).traces.map
        (fun pr => (pr.1, pr.2.length)) = [(0, 2)] := by
  have h := C6_observer_error_aborts_as_failure (fun _ _ _ => .ok [])
    0 5 2 2 "boom" (fun _ _ _ => ⟨[], rfl⟩) (by omega) (by omega) (by omega)
  exact ⟨h.1, h.2.2⟩

theorem runSeqFrom_stopped (step : StepFn) (obs : ObserverFn)
    (tune draws : Nat) :
    ∀ cs : List Nat,
    (runSeqFrom step obs tune draws cs).status = .stoppedByObserver →
    ∃ l₁ i l₂, cs = l₁ ++ i :: l₂
      ∧ (runSeqFrom step obs tune draws cs).traces.map Prod.fst = l₁ ++ [i]
      ∧ ∀ d ∈ (runSeqFrom step obs tune draws cs).log,
          d.chain_id ∈ l₁ ++ [i] := by
  intro cs
  induction cs with
  | nil => intro h; simp [runSeqFrom] at h
  | cons c rest ih =>
    intro h
    have hspec := runChainLoop_spec step obs tune c (tune + draws)
      (Trace.empty c) rfl
    rcases ho : (runChainLoop step obs tune c (Trace.empty c)
        (tune + draws)).2.1 with _ | _ | e | e
    · simp only [runSeqFrom, ho] at h ⊢
      obtain ⟨l₁, i, l₂, hcs, htr, hlog⟩ := ih h
      refine ⟨c :: l₁, i, l₂, by rw [hcs]; rfl, ?_, ?_⟩
      · simp [htr]
      · intro d hd
        rw [List.cons_append]
        rcases List.mem_append.mp hd with hd | hd
        · rw [hspec.2.2.2 d hd]
          exact List.mem_cons_self c (l₁ ++ [i])
        · exact List.mem_cons_of_mem c (hlog d hd)
    · refine ⟨[], c, rest, rfl, ?_, ?_⟩
      · simp only [runSeqFrom, ho]
        simp
      · simp only [runSeqFrom, ho]
        intro d hd
        rw [hspec.2.2.2 d hd]
        simp
    · simp only [runSeqFrom, ho] at h
      exact absurd h (by simp)
    · simp only [runSeqFrom, ho] at h
      exact absurd h (by simp)

/-- C4: in sequential mode, when the run is stopped by the observer the
stop happened on some chain `i`: exactly the chains `0..i` have traces in
the result, and every draw ever delivered to the observer belongs to a
chain `≤ i`, so no chain after `i` produced any draw. -/
theorem C4_sequential_stop_skips_later_chains (step : StepFn)
    (obs : ObserverFn) (tune draws chains : Nat)
    (h : (runSequential chains tune draws step obs).status
        = .stoppedByObserver) :
    ∃ i, i < chains
      ∧ (runSequential chains tune draws step obs).traces.map Prod.fst
          = List.range (i + 1)
      ∧ ∀ d ∈ (runSequential chains tune draws step obs).log,
          d.chain_id ≤ i := by
  obtain ⟨l₁, i, l₂, hcs, htr, hlog⟩ :=
    runSeqFrom_stopped step obs tune draws (List.range chains) h
  have hlen2 : l₁.length + 1 ≤ chains := by
    have := congrArg List.length hcs
    simp at this
    omega
  have htake : (List.range chains).take (l₁.length + 1) = l₁ ++ [i] := by
    rw [hcs, show l₁ ++ i :: l₂ = (l₁ ++ [i]) ++ l₂ by simp]
    exact List.take_left' (by simp)
  have hrange : l₁ ++ [i] = List.range (l₁.length + 1) := by
    rw [← htake, List.take_range]
    congr 1
    omega
  have hi : i = l₁.length := by
    have h2 : l₁ ++ [i] = List.range l₁.length ++ [l₁.length] := by
      rw [hrange, List.range_succ]
    have h3 := List.append_inj' h2 (by simp)
    simpa using h3.2
  subst hi
  unfold runSequential
  refine ⟨l₁.length, by omega, ?_, ?_⟩
  · rw [htr, hrange]
  · intro d hd
    have hmem := hlog d hd
    rw [hrange] at hmem
    have := List.mem_range.mp hmem
    omega

/-- C4 witness: a three-chain run stopping at trace length 3 on chain 0
returns only chain 0's trace and delivered only chain-0 draws. -/
theorem C4_sequential_stop_skips_later_chains_witness :
    ∃ i, i < 3
      ∧ (runSequential 3 0 5 (fun _ _ _ => .ok [])
          (stopAtLen 3)).traces.map Prod.fst = List.range (i + 1)
      ∧ ∀ d ∈ (runSequential 3 0 5 (fun _ _ _ => .ok [])
          (stopAtLen 3)).log, d.chain_id ≤ i :=
  C4_sequential_stop_skips_later_chains (fun _ _ _ => .ok [])
    (stopAtLen 3) 0 5 3 rfl

theorem runSeqFrom_log_mem (step : StepFn) (obs : ObserverFn)
    (tune draws : Nat) :
    ∀ cs : List Nat, ∀ d ∈ (runSeqFrom step obs tune draws cs).log,
    d.chain_id ∈ cs := by
  intro cs
  induction cs with
  | nil => intro d hd; simp [runSeqFrom] at hd
  | cons c rest ih =>
    intro d hd
    have hspec := runChainLoop_spec step obs tune c (tune + draws)
      (Trace.empty c) rfl
    rcases ho : (runChainLoop step obs tune c (Trace.empty c)
        (tune + draws)).2.1 with _ | _ | e | e
    · simp only [runSeqFrom, ho] at hd
      rcases List.mem_append.mp hd with hd | hd
      · rw [hspec.2.2.2 d hd]; exact List.mem_cons_self c rest
      · exact List.mem_cons_of_mem c (ih d hd)
    · simp only [runSeqFrom, ho] at hd
      rw [hspec.2.2.2 d hd]; exact List.mem_cons_self c rest
    · simp only [runSeqFrom, ho] at hd
      rw [hspec.2.2.2 d hd]; exact List.mem_cons_self c rest
    · simp only [runSeqFrom, ho] at hd
      rw [hspec.2.2.2 d hd]; exact List.mem_cons_self c rest

theorem runSeqFrom_filter_index (step : StepFn) (obs : ObserverFn)
    (tune draws : Nat) :
    ∀ cs : List Nat, cs.Nodup → ∀ c,
    ((runSeqFrom step obs tune draws cs).log.filter
        (fun d => d.chain_id == c)).map (fun d => d.index)
      = List.range (((runSeqFrom step obs tune draws cs).log.filter
          (fun d => d.chain_id == c)).length) := by
  intro cs
  induction cs with
  | nil => intro _ c; simp [runSeqFrom]
  | cons c0 rest ih =>
    intro hnd c
    have hnd0 : c0 ∉ rest := (List.nodup_cons.mp hnd).1
    have hndr : rest.Nodup := (List.nodup_cons.mp hnd).2
    have hspec := runChainLoop_spec step obs tune c0 (tune + draws)
      (Trace.empty c0) rfl
    have hmap : (runChainLoop step obs tune c0 (Trace.empty c0)
        (tune + draws)).2.2.map (fun d => d.index)
        = List.range ((runChainLoop step obs tune c0 (Trace.empty c0)
            (tune + draws)).2.2.length) := by
      rw [List.range_eq_range']
      simpa [Trace.empty, Trace.length] using hspec.2.2.1
    have hchain := hspec.2.2.2
    by_cases hc : c = c0
    · subst hc
      have hfself : (runChainLoop step obs tune c (Trace.empty c)
          (tune + draws)).2.2.filter (fun d => d.chain_id == c)
          = (runChainLoop step obs tune c (Trace.empty c) (tune + draws)).2.2 :=
        List.filter_eq_self.mpr (fun d hd => by simp [hchain d hd])
      rcases ho : (runChainLoop step obs tune c (Trace.empty c)
          (tune + draws)).2.1 with _ | _ | e | e
      · have hfrest : (runSeqFrom step obs tune draws rest).log.filter
            (fun d => d.chain_id == c) = [] := by
          rw [List.filter_eq_nil_iff]
          intro d hd
          have := runSeqFrom_log_mem step obs tune draws rest d hd
          simp only [beq_iff_eq]
          intro hh
          rw [hh] at this
          exact hnd0 this
        simp only [runSeqFrom, ho, List.filter_append, hfself, hfrest,
          List.append_nil]
        exact hmap
      · simp only [runSeqFrom, ho, hfself]
        exact hmap
      · simp only [runSeqFrom, ho, hfself]
        exact hmap
      · simp only [runSeqFrom, ho, hfself]
        exact hmap
    · have hfnil : (runChainLoop step obs tune c0 (Trace.empty c0)
          (tune + draws)).2.2.filter (fun d => d.chain_id == c) = [] := by
        rw [List.filter_eq_nil_iff]
        intro d hd
        simp only [beq_iff_eq]
        rw [hchain d hd]
        exact fun hh => hc hh.symm
      rcases ho : (runChainLoop step obs tune c0 (Trace.empty c0)
          (tune + draws)).2.1 with _ | _ | e | e
      · simp only [runSeqFrom, ho, List.filter_append, hfnil,
          List.nil_append]
        exact ih hndr c
      · simp only [runSeqFrom, ho, hfnil]
        simp
      · simp only [runSeqFrom, ho, hfnil]
        simp
      · simp only [runSeqFrom, ho, hfnil]
        simp

theorem concTick_postStop_inv (step : StepFn) (obs : ObserverFn)
    (tune draws : Nat) (s : ConcState) (c : Nat)
    (h1 : ∀ ch ∈ s.chainsSt,
        ch.postStop + (if ch.inFlight.isSome then 1 else 0) ≤ 1)
    (h2 : s.stopRequested = false → ∀ ch ∈ s.chainsSt, ch.postStop = 0) :
    (∀ ch ∈ (concTick step obs tune draws s c).chainsSt,
        ch.postStop + (if ch.inFlight.isSome then 1 else 0) ≤ 1)
    ∧ ((concTick step obs tune draws s c).stopRequested = false →
        ∀ ch ∈ (concTick step obs tune draws s c).chainsSt,
          ch.postStop = 0) := by
  obtain ⟨u, hres⟩ : ∃ u, concTick step obs tune draws s c = u := ⟨_, rfl⟩
  rw [hres]
  unfold concTick at hres
  split at hres
  · subst hres; exact ⟨h1, h2⟩
  · rename_i ch hget
    have hmem : ch ∈ s.chainsSt := List.getElem?_mem hget
    have hch1 := h1 ch hmem
    split at hres
    · subst hres; exact ⟨h1, h2⟩
    · split at hres
      · rename_i d hin
        rw [hin] at hch1
        simp only [Option.isSome_some, if_true] at hch1
        have hps : ch.postStop = 0 := by omega
        split at hres
        · subst hres
          refine ⟨?_, by simp⟩
          intro ch' hch'
          rcases List.mem_or_eq_of_mem_set hch' with hm | rfl
          · exact h1 ch' hm
          · simp [hps]
        · rename_i t' happ
          split at hres
          · rename_i hs
            split at hres
            · subst hres
              constructor
              · intro ch' hch'
                rcases List.mem_or_eq_of_mem_set hch' with hm | rfl
                · exact h1 ch' hm
                · simp [hps]
              · intro hstop
                simp only at hstop
                rw [hs] at hstop
                exact absurd hstop (by simp)
            · subst hres
              refine ⟨?_, by simp⟩
              intro ch' hch'
              rcases List.mem_or_eq_of_mem_set hch' with hm | rfl
              · exact h1 ch' hm
              · simp [hps]
            · subst hres
              refine ⟨?_, by simp⟩
              intro ch' hch'
              rcases List.mem_or_eq_of_mem_set hch' with hm | rfl
              · exact h1 ch' hm
              · simp [hps]
          · rename_i hs
            split at hres
            · subst hres
              constructor
              · intro ch' hch'
                rcases List.mem_or_eq_of_mem_set hch' with hm | rfl
                · exact h1 ch' hm
                · simp [hps]
              · intro hstop
                simp only at hstop
                intro ch' hch'
                rcases List.mem_or_eq_of_mem_set hch' with hm | rfl
                · exact h2 hstop ch' hm
                · simp [hps]
            · subst hres
              refine ⟨?_, by simp⟩
              intro ch' hch'
              rcases List.mem_or_eq_of_mem_set hch' with hm | rfl
              · exact h1 ch' hm
              · simp [hps]
            · subst hres
              refine ⟨?_, by simp⟩
              intro ch' hch'
              rcases List.mem_or_eq_of_mem_set hch' with hm | rfl
              · exact h1 ch' hm
              · simp [hps]
      · rename_i hin
        rw [hin] at hch1
        simp only [Option.isSome_none, Bool.false_eq_true, if_false,
          Nat.add_zero] at hch1
        split at hres
        · subst hres
          constructor
          · intro ch' hch'
            rcases List.mem_or_eq_of_mem_set hch' with hm | rfl
            · exact h1 ch' hm
            · simp only
              rw [hin]
              simpa using hch1
          · intro hstop
            simp only at hstop
            intro ch' hch'
            rcases List.mem_or_eq_of_mem_set hch' with hm | rfl
            · exact h2 hstop ch' hm
            · simpa using h2 hstop ch hmem
        · rename_i hs
          have hsf : s.stopRequested = false := by simpa using hs
          split at hres
          · subst hres
            constructor
            · intro ch' hch'
              rcases List.mem_or_eq_of_mem_set hch' with hm | rfl
              · exact h1 ch' hm
              · simp only
                rw [hin]
                simpa using hch1
            · intro hstop
              simp only at hstop
              intro ch' hch'
              rcases List.mem_or_eq_of_mem_set hch' with hm | rfl
              · exact h2 hstop ch' hm
              · simpa using h2 hstop ch hmem
          · split at hres
            · subst hres
              refine ⟨?_, by simp⟩
              intro ch' hch'
              rcases List.mem_or_eq_of_mem_set hch' with hm | rfl
              · exact h1 ch' hm
              · simp only
                rw [hin]
                simpa using hch1
            · rename_i p hsp
              subst hres
              have hzero : ch.postStop = 0 := h2 hsf ch hmem
              constructor
              · intro ch' hch'
                rcases List.mem_or_eq_of_mem_set hch' with hm | rfl
                · exact h1 ch' hm
                · simp [hzero]
              · intro hstop
                simp only at hstop
                intro ch' hch'
                rcases List.mem_or_eq_of_mem_set hch' with hm | rfl
                · exact h2 hstop ch' hm
                · simpa using hzero

/-- C5: in concurrent mode, under every scheduling interleaving, every
chain appends at most one draw after a stop has been requested (the
`postStop` counter of each chain never exceeds one), so no chain keeps
producing once the stop flag is raised. -/
theorem C5_concurrent_at_most_one_extra_draw (step : StepFn)
    (obs : ObserverFn) (tune draws chains : Nat) (sched : List Nat) :
    ∀ ch ∈ (runConc step obs tune draws chains sched).chainsSt,
      ch.postStop ≤ 1 := by
  have main : ∀ (sch : List Nat) (s : ConcState),
      (∀ ch ∈ s.chainsSt,
          ch.postStop + (if ch.inFlight.isSome then 1 else 0) ≤ 1) →
      (s.stopRequested = false → ∀ ch ∈ s.chainsSt, ch.postStop = 0) →
      ∀ ch ∈ (sch.foldl (concTick step obs tune draws) s).chainsSt,
        ch.postStop + (if ch.inFlight.isSome then 1 else 0) ≤ 1 := by
    intro sch
    induction sch with
    | nil => intro s hA _; simpa using hA
    | cons c rest ih =>
      intro s hA hB
      simp only [List.foldl_cons]
      have h := concTick_postStop_inv step obs tune draws s c hA hB
      exact ih _ h.1 h.2
  intro ch hch
  have hA0 : ∀ ch ∈ (ConcState.init chains).chainsSt,
      ch.postStop + (if ch.inFlight.isSome then 1 else 0) ≤ 1 := by
    intro ch hch
    simp [ConcState.init] at hch
    obtain ⟨c, _, rfl⟩ := hch
    simp
  have hB0 : (ConcState.init chains).stopRequested = false →
      ∀ ch ∈ (ConcState.init chains).chainsSt, ch.postStop = 0 := by
    intro _ ch hch
    simp [ConcState.init] at hch
    obtain ⟨c, _, rfl⟩ := hch
    rfl
  have hfin := main sched (ConcState.init chains) hA0 hB0 ch
    (by unfold runConc at hch; exact hch)
  omega

/-- C5 witness: one scheduled tick of a fresh chain leaves its post-stop
draw count at zero, within the bound. -/
theorem C5_concurrent_at_most_one_extra_draw_witness :
    (⟨Trace.empty 0, some ⟨0, 0, true, []⟩, false, 0⟩ : ChainConc).postStop
      ≤ 1 :=
  C5_concurrent_at_most_one_extra_draw (fun _ _ _ => .ok [])
    (fun _ _ => .Continue) 1 0 1 [0]
    ⟨Trace.empty 0, some ⟨0, 0, true, []⟩, false, 0⟩ (by decide)

theorem getElem?_set_cases (l : List ChainConc) (i j : Nat) (x : ChainConc)
    (hi : i < l.length) :
    (l.set i x)[j]? = if i = j then some x else l[j]? := by
  by_cases h : i = j
  · subst h
    rw [List.getElem?_set_eq_of_lt x hi]
    simp
  · rw [List.getElem?_set_ne h]
    simp [h]

theorem LogInv_set_same_trace (cs : List ChainConc) (log : List Draw)
    (c0 : Nat) (ch x : ChainConc)
    (hget : cs[c0]? = some ch) (hinv : LogInv cs log)
    (hxt : x.trace = ch.trace)
    (hxin : ∀ d, x.inFlight = some d →
        d.chain_id = c0 ∧ d.index = x.trace.length) :
    LogInv (cs.set c0 x) log := by
  have hlt : c0 < cs.length := (List.getElem?_eq_some.mp hget).1
  obtain ⟨hA, hB, hC⟩ := hinv
  refine ⟨?_, ?_, ?_⟩
  · intro c
    rw [getElem?_set_cases cs c0 c x hlt]
    by_cases h : c0 = c
    · subst h
      rw [if_pos rfl]
      have := hA c0
      rw [hget] at this
      simpa [hxt] using this
    · rw [if_neg h]
      exact hA c
  · intro i ch' hch'
    rw [getElem?_set_cases cs c0 i x hlt] at hch'
    by_cases h : c0 = i
    · subst h
      rw [if_pos rfl] at hch'
      obtain rfl : x = ch' := by injection hch'
      refine ⟨by rw [hxt]; exact (hB c0 ch hget).1, hxin⟩
    · rw [if_neg h] at hch'
      exact hB i ch' hch'
  · intro d hd
    rw [List.length_set]
    exact hC d hd

theorem LogInv_append_draw (cs : List ChainConc) (log : List Draw)
    (c0 : Nat) (ch : ChainConc) (d : Draw) (t' : Trace) (fin : Bool)
    (ps : Nat)
    (hget : cs[c0]? = some ch) (hinv : LogInv cs log)
    (hin : ch.inFlight = some d)
    (ht' : t' = ⟨ch.trace.chain_id, ch.trace.draws ++ [d]⟩) :
    LogInv (cs.set c0 ⟨t', none, fin, ps⟩) (log ++ [d]) := by
  have hlt : c0 < cs.length := (List.getElem?_eq_some.mp hget).1
  obtain ⟨hA, hB, hC⟩ := hinv
  have hBc := hB c0 ch hget
  have hd := hBc.2 d hin
  refine ⟨?_, ?_, ?_⟩
  · intro c
    rw [List.filter_append, getElem?_set_cases cs c0 c _ hlt]
    by_cases h : c0 = c
    · subst h
      rw [if_pos rfl]
      have hone : [d].filter (fun d' => d'.chain_id == c0) = [d] := by
        simp [List.filter, hd.1]
      rw [hone, List.map_append]
      have hfl := hA c0
      rw [hget] at hfl
      rw [hfl]
      have hlen : t'.length = ch.trace.length + 1 := by
        rw [ht']
        simp [Trace.length]
      change List.range ch.trace.length ++ List.map (fun d => d.index) [d]
        = List.range t'.length
      rw [hlen, List.range_succ]
      simp [hd.2]
    · rw [if_neg h]
      have hzero : [d].filter (fun d' => d'.chain_id == c) = [] := by
        simp [List.filter, hd.1, beq_false_of_ne h]
      rw [hzero, List.append_nil]
      exact hA c
  · intro i ch' hch'
    rw [getElem?_set_cases cs c0 i _ hlt] at hch'
    by_cases h : c0 = i
    · subst h
      rw [if_pos rfl] at hch'
      obtain rfl : (⟨t', none, fin, ps⟩ : ChainConc) = ch' := by
        injection hch'
      refine ⟨by rw [ht']; exact hBc.1, ?_⟩
      intro d' hd'
      simp at hd'
    · rw [if_neg h] at hch'
      exact hB i ch' hch'
  · intro d' hd'
    rw [List.length_set]
    rcases List.mem_append.mp hd' with hd' | hd'
    · exact hC d' hd'
    · rw [List.mem_singleton.mp hd', hd.1]
      exact hlt

theorem concTick_LogInv (step : StepFn) (obs : ObserverFn)
    (tune draws : Nat) (s : ConcState) (c0 : Nat)
    (hinv : LogInv s.chainsSt s.log) :
    LogInv (concTick step obs tune draws s c0).chainsSt
      (concTick step obs tune draws s c0).log := by
  obtain ⟨u, hres⟩ : ∃ u, concTick step obs tune draws s c0 = u := ⟨_, rfl⟩
  rw [hres]
  unfold concTick at hres
  split at hres
  · subst hres; exact hinv
  · rename_i ch hget
    have hBc := hinv.2.1 c0 ch hget
    split at hres
    · subst hres; exact hinv
    · split at hres
      · rename_i d hin
        have hd := hBc.2 d hin
        split at hres
        · subst hres
          exact LogInv_set_same_trace _ _ c0 ch _ hget hinv rfl
            (fun d' h => by simp at h)
        · rename_i t' happ
          have happ2 : ch.trace.append d
              = .ok ⟨ch.trace.chain_id, ch.trace.draws ++ [d]⟩ := by
            simp [Trace.append, hd.2, hd.1, hBc.1]
          have ht' : t' = ⟨ch.trace.chain_id, ch.trace.draws ++ [d]⟩ := by
            rw [happ] at happ2
            injection happ2
          split at hres
          · split at hres <;> subst hres <;>
              exact LogInv_append_draw _ _ c0 ch d t' _ _ hget hinv hin ht'
          · split at hres <;> subst hres <;>
              exact LogInv_append_draw _ _ c0 ch d t' _ _ hget hinv hin ht'
      · rename_i hin
        split at hres
        · subst hres
          exact LogInv_set_same_trace _ _ c0 ch _ hget hinv rfl
            (fun d' h => hBc.2 d' h)
        · split at hres
          · subst hres
            exact LogInv_set_same_trace _ _ c0 ch _ hget hinv rfl
              (fun d' h => hBc.2 d' h)
          · split at hres
            · subst hres
              exact LogInv_set_same_trace _ _ c0 ch _ hget hinv rfl
                (fun d' h => hBc.2 d' h)
            · rename_i p hsp
              subst hres
              refine LogInv_set_same_trace _ _ c0 ch _ hget hinv rfl ?_
              intro d' h
              obtain rfl : (⟨c0, ch.trace.length,
                  decide (ch.trace.length < tune), p⟩ : Draw) = d' := by
                injection h
              exact ⟨rfl, rfl⟩

theorem runConc_LogInv (step : StepFn) (obs : ObserverFn)
    (tune draws chains : Nat) (sched : List Nat) :
    LogInv (runConc step obs tune draws chains sched).chainsSt
      (runConc step obs tune draws chains sched).log := by
  have hinit : LogInv (ConcState.init chains).chainsSt
      (ConcState.init chains).log := by
    refine ⟨?_, ?_, ?_⟩
    · intro c
      rcases Nat.lt_or_ge c chains with hc | hc
      · simp [ConcState.init, List.getElem?_map, List.getElem?_range hc,
          Trace.empty, Trace.length]
      · have hnone : (List.range chains)[c]? = none := by
          rw [List.getElem?_eq_none]
          simpa using hc
        simp [ConcState.init, List.getElem?_map, hnone]
    · intro i ch hch
      simp only [ConcState.init, List.getElem?_map] at hch
      rcases Nat.lt_or_ge i chains with hc | hc
      · rw [List.getElem?_range hc] at hch
        simp only [Option.map_some'] at hch
        obtain rfl : (⟨Trace.empty i, none, false, 0⟩ : ChainConc) = ch := by
          injection hch
        exact ⟨rfl, fun d h => by simp at h⟩
      · have hnone : (List.range chains)[i]? = none := by
          rw [List.getElem?_eq_none]
          simpa using hc
        rw [hnone] at hch
        simp at hch
    · intro d hd
      simp [ConcState.init] at hd
  have main : ∀ (sch : List Nat) (s : ConcState),
      LogInv s.chainsSt s.log →
      LogInv ((sch.foldl (concTick step obs tune draws) s)).chainsSt
        ((sch.foldl (concTick step obs tune draws) s)).log := by
    intro sch
    induction sch with
    | nil => intro s h; simpa using h
    | cons c rest ih =>
      intro s h
      simp only [List.foldl_cons]
      exact ih _ (concTick_LogInv step obs tune draws s c h)
  unfold runConc
  exact main sched (ConcState.init chains) hinit

/-- C3: for every chain and in both coordinator modes, the sequence of
draw indices delivered to the observer for that chain is exactly
`0, 1, 2, ...` with no gaps or repeats: in sequential mode for every
configuration, and in concurrent mode under every scheduling
interleaving. -/
theorem C3_observer_index_sequence :
    (∀ (chains tune draws : Nat) (step : StepFn) (obs : ObserverFn)
      (c : Nat),
      ((runSequential chains tune draws step obs).log.filter
          (fun d => d.chain_id == c)).map (fun d => d.index)
        = List.range (((runSequential chains tune draws step obs).log.filter
            (fun d => d.chain_id == c)).length))
    ∧ (∀ (step : StepFn) (obs : ObserverFn) (tune draws chains : Nat)
      (sched : List Nat) (c : Nat),
      ((runConc step obs tune draws chains sched).log.filter
          (fun d => d.chain_id == c)).map (fun d => d.index)
        = List.range (((runConc step obs tune draws chains sched).log.filter
            (fun d => d.chain_id == c)).length)) := by
  constructor
  · intro chains tune draws step obs c
    unfold runSequential
    exact runSeqFrom_filter_index step obs tune draws (List.range chains)
      (List.nodup_range chains) c
  · intro step obs tune draws chains sched c
    have hA := (runConc_LogInv step obs tune draws chains sched).1 c
    have hlenEq :
        ((runConc step obs tune draws chains sched).log.filter
          (fun d => d.chain_id == c)).length
        = (match (runConc step obs tune draws chains sched).chainsSt[c]? with
            | some ch => ch.trace.length
            | none => 0) := by
      have := congrArg List.length hA
      simpa using this
    rw [hlenEq]
    exact hA

end SamplingCallback
